import Mathlib

/-!
Shallow embedding of `EVhumanization/deimmunization/deimmu_prep/abstract_deimmu_prep.py`
and verification of properties of its frequency estimator (`_frequencies`),
single-site model fitter (`_independent_model`), coupling-parameter extractor
(`AbstractDeimmuPreparation.extract_ev_paras`) and problem serializer
(`AbstractDeimmuPreparation.to_data_file` and the `format_*` helpers).

Python dictionaries are modelled as insertion-ordered association lists with a
last-write-wins lookup (`dictOf`); Python's `sorted` is modelled with
`List.insertionSort`; `sorted(set(...))` as `insertionSort` after `List.dedup`.
Numeric table values are modelled as rationals (the extractor only negates and
copies values, so no real arithmetic is needed there); the single-site fitter's
objective and gradient are modelled over the reals.
-/

namespace EVhumanization

/-! ## Python dict semantics: insertion-ordered association list, later writes win -/
/-- Lookup in an association list where later entries override earlier ones,
as in a Python dict built by successive assignments. -/
def dictOf {K V : Type} [DecidableEq K] : List (K × V) → K → Option V
  | [], _ => none
  | kv :: l, k =>
    match dictOf l k with
    | some v => some v
    | none => if k = kv.1 then some kv.2 else none

/-! ## External collaborators (interfaces only, per the spec's §6)

The `EVcouplings`, `Wildtype` and `AlleleCollection` classes live outside
`abstract_deimmu_prep.py`; only the fields/methods the embedded code reads are
modelled, as abstract data. `index_map` is a Python dict, hence a partial map. -/
structure EVcouplings where
  /-- Iteration-ordered keys of `alphabet_map`; the associated index of symbol
  `a` is its position in this list (`alphabet_map`). -/
  alphabet : List Char
  /-- Dense field table `h_i`, indexed `[model column, symbol index]`. -/
  h : ℕ → ℕ → ℚ
  /-- Dense coupling table `J_ij`, indexed `[column, column, symbol, symbol]`. -/
  J : ℕ → ℕ → ℕ → ℕ → ℚ
  /-- Column-index map `index_map`; a Python dict, so lookup is partial
  (a missing key raises `KeyError`, modelled as `none`). -/
  index_map : ℕ → Option ℕ

def EVcouplings.alphabet_map (ev : EVcouplings) (a : Char) : ℕ :=
  ev.alphabet.indexOf a

def EVcouplings.num_symbols (ev : EVcouplings) : ℕ :=
  ev.alphabet.length

/-- Embedding of `filter(lambda x: x != '-', ev_couplings.alphabet_map.keys())`. -/
def EVcouplings.nonGap (ev : EVcouplings) : List Char :=
  ev.alphabet.filter (fun x => x ≠ '-')

structure Wildtype where
  sequence : List Char
  /-- Native (pairwise-model-covered) positions, 0-based. -/
  upper : List ℕ
  /-- Fallback-only (insertion) positions, 0-based. -/
  lower : List ℕ
  /-- Lookup from internal position to model (uniprot) column index. -/
  map_to_uniprot : ℕ → ℕ
  /-- Rendering of the scalar parameter `N` (delegated method). -/
  to_param_N : String

structure AlleleCollection where
  to_set_A : String
  to_param_pssm_thresh : String
  to_param_p : String
  to_param_pssm : ℕ → String

/-- State of an `AbstractDeimmuPreparation` object as read by
`extract_ev_paras` and `to_data_file`. `possible_mutations` is modelled with an
explicit iteration order (a Python set iterates in a fixed order within a run). -/
structure AbstractDeimmuPreparation where
  wildtype : Wildtype
  allele_coll : AlleleCollection
  num_mutations : ℕ
  epitope_length : ℕ
  excluded_pos : List ℕ
  ignored_pos : List ℕ
  possible_mutations : ℕ → List Char
  use_single_site_model : Bool
  /-- Fitted single-site field table `single_hi`, indexed `[position, symbol index]`. -/
  single_hi : ℕ → ℕ → ℚ

/-! ## Frequency estimator `_frequencies` (lines 67-90) -/
/-- The symbols skipped by `_frequencies`: `["-", ".", "X", "B", "Z"]`. -/
def excluded_symbols : List Char := ['-', '.', 'X', 'B', 'Z']

/-- Body of the inner loop of `_frequencies`: process the residue of sequence
`s` at column `i`, incrementing one counter cell unless the (uppercased)
symbol is excluded. -/
def freqStep (ev : EVcouplings) (matrix : ℕ → ℕ → Char) (s i : ℕ)
    (fi : ℕ → ℕ → ℚ) : ℕ → ℕ → ℚ :=
  let aa := (matrix s i).toUpper
  if aa ∈ excluded_symbols then fi
  else fun i' k' =>
    if i' = i ∧ k' = ev.alphabet_map aa then fi i' k' + 1 else fi i' k'

/-- The count matrix accumulated by the two nested loops of `_frequencies`. -/
def freqCounts (ev : EVcouplings) (matrix : ℕ → ℕ → Char) (N L : ℕ) : ℕ → ℕ → ℚ :=
  (List.range N).foldl
    (fun fi s => (List.range L).foldl (fun fi i => freqStep ev matrix s i fi) fi)
    (fun _ _ => 0)

/-- Embedding of `_frequencies`: the count matrix divided by the number of sequences `N`. -/
def frequencies (ev : EVcouplings) (matrix : ℕ → ℕ → Char) (N L : ℕ) : ℕ → ℕ → ℚ :=
  fun i k => freqCounts ev matrix N L i k / N

/-- Does the residue of sequence `s` at column `i` land in counter cell `k`? -/
def freqHits (ev : EVcouplings) (matrix : ℕ → ℕ → Char) (s i k : ℕ) : Prop :=
  (matrix s i).toUpper ∉ excluded_symbols ∧ k = ev.alphabet_map (matrix s i).toUpper

instance (ev : EVcouplings) (matrix : ℕ → ℕ → Char) (s i k : ℕ) :
    Decidable (freqHits ev matrix s i k) := by
  unfold freqHits
  infer_instance

/-! ## Parameter extractor `extract_ev_paras` (lines 199-244)

A failing `index_map` lookup raises `KeyError` in Python; the extraction is
therefore modelled in the `Option` monad: `none` is the aborted run. -/
/-- Version of `List.mapM` specialised to `Option`, by structural recursion, to keep the
equations friendly to induction. -/
def optMapM {α β : Type} (f : α → Option β) : List α → Option (List β)
  | [] => some []
  | a :: l => do
    let b ← f a
    let bs ← optMapM f l
    pure (b :: bs)

/-- Lexicographic comparison on position pairs: the order `sorted` uses on
Python 2-tuples. -/
def pairLe (p q : ℕ × ℕ) : Prop :=
  p.1 < q.1 ∨ (p.1 = q.1 ∧ p.2 ≤ q.2)

instance : DecidableRel pairLe := fun p q =>
  inferInstanceAs (Decidable (p.1 < q.1 ∨ (p.1 = q.1 ∧ p.2 ≤ q.2)))

instance : IsTotal (ℕ × ℕ) pairLe :=
  ⟨fun p q => by
    unfold pairLe
    rcases Nat.lt_trichotomy p.1 q.1 with h | h | h
    · exact Or.inl (Or.inl h)
    · rcases Nat.le_total p.2 q.2 with h2 | h2
      · exact Or.inl (Or.inr ⟨h, h2⟩)
      · exact Or.inr (Or.inr ⟨h.symm, h2⟩)
    · exact Or.inr (Or.inl h)⟩

instance : IsTrans (ℕ × ℕ) pairLe :=
  ⟨fun p q r hpq hqr => by
    unfold pairLe at *
    rcases hpq with h1 | ⟨h1, h1b⟩ <;> rcases hqr with h2 | ⟨h2, h2b⟩
    · exact Or.inl (h1.trans h2)
    · exact Or.inl (h2 ▸ h1)
    · exact Or.inl (h1 ▸ h2)
    · exact Or.inr ⟨h1.trans h2, h1b.trans h2b⟩⟩

/-- Embedding of `hi_indices` before the fallback branch:
`[i for i in self.wildtype.upper if i not in self.ignored_pos]`. -/
def hi_indices_upper (st : AbstractDeimmuPreparation) : List ℕ :=
  st.wildtype.upper.filter (fun i => i ∉ st.ignored_pos)

/-- Indices appended by the single-site fallback branch (lines 219-222). -/
def fallback_indices (st : AbstractDeimmuPreparation) : List ℕ :=
  if st.use_single_site_model then
    st.wildtype.lower.filter (fun i => i ∉ st.ignored_pos)
  else []

/-- The `(i, ai)` iteration space of the native `hi` loop (lines 212-213). -/
def hiNativePairs (ev : EVcouplings) (st : AbstractDeimmuPreparation) : List (ℕ × Char) :=
  st.wildtype.upper.flatMap (fun i => ev.nonGap.map (fun ai => (i, ai)))

/-- One native `hi` assignment (lines 214-217): fails if the uniprot-mapped
column is absent from `index_map`. -/
def hiEntryNative (ev : EVcouplings) (st : AbstractDeimmuPreparation)
    (p : ℕ × Char) : Option ((ℕ × Char) × ℚ) := do
  let col ← ev.index_map (st.wildtype.map_to_uniprot p.1)
  pure ((p.1, p.2), -ev.h col (ev.alphabet_map p.2))

/-- The `hi` assignments of the fallback branch (lines 223-224); these read
`single_hi`, not the coupling model, so they cannot fail. -/
def hiFallback (ev : EVcouplings) (st : AbstractDeimmuPreparation) :
    List ((ℕ × Char) × ℚ) :=
  (fallback_indices st).flatMap (fun i =>
    ev.nonGap.map (fun ai => ((i, ai), -st.single_hi i (ev.alphabet_map ai))))

/-- Embedding of `eij_indices` (lines 228-234): `sorted(set(...))` of canonicalized pairs. -/
def eij_indices (st : AbstractDeimmuPreparation) : List (ℕ × ℕ) :=
  List.insertionSort pairLe
    ((st.wildtype.upper.flatMap (fun i =>
      st.wildtype.upper.filterMap (fun j =>
        if i ≠ j ∧ ((i < j ∧ i ∉ st.ignored_pos) ∨ (j < i ∧ j ∉ st.ignored_pos))
        then some (if i < j then (i, j) else (j, i))
        else none))).dedup)

/-- The `((i, j), ai, aj)` iteration space of the `eij` loops (lines 236-238). -/
def eijQuads (st : AbstractDeimmuPreparation) : List ((ℕ × ℕ) × Char × Char) :=
  (eij_indices st).flatMap (fun ij =>
    (st.possible_mutations ij.1).flatMap (fun ai =>
      (st.possible_mutations ij.2).map (fun aj => (ij, ai, aj))))

/-- One `eij` assignment (lines 239-244), with its two `index_map` lookups. -/
def eijEntry (ev : EVcouplings) (st : AbstractDeimmuPreparation)
    (q : (ℕ × ℕ) × Char × Char) : Option ((ℕ × ℕ × Char × Char) × ℚ) := do
  let ci ← ev.index_map (st.wildtype.map_to_uniprot q.1.1)
  let cj ← ev.index_map (st.wildtype.map_to_uniprot q.1.2)
  pure ((q.1.1, q.1.2, q.2.1, q.2.2),
    -ev.J ci cj (ev.alphabet_map q.2.1) (ev.alphabet_map q.2.2))

/-- The tables `extract_ev_paras` stores on the object. The two dicts are kept
as insertion-ordered association lists; lookup is `dictOf`. -/
structure ExtractResult where
  hi_indices : List ℕ
  hi : List ((ℕ × Char) × ℚ)
  eij_indices : List (ℕ × ℕ)
  eij : List ((ℕ × ℕ × Char × Char) × ℚ)
deriving DecidableEq

/-- Embedding of `extract_ev_paras` (lines 199-244). Returns `none` when any `index_map`
lookup raises `KeyError`, aborting the whole extraction. -/
def extract_ev_paras (ev : EVcouplings) (st : AbstractDeimmuPreparation) :
    Option ExtractResult := do
  let hiN ← optMapM (hiEntryNative ev st) (hiNativePairs ev st)
  let eijL ← optMapM (eijEntry ev st) (eijQuads st)
  pure
    { hi_indices :=
        List.insertionSort (fun a b => a ≤ b) (hi_indices_upper st ++ fallback_indices st)
      hi := hiN ++ hiFallback ev st
      eij_indices := eij_indices st
      eij := eijL }

def emptyResult : ExtractResult :=
  { hi_indices := [], hi := [], eij_indices := [], eij := [] }

/-! ## Small concrete instances used as witnesses and counterexamples -/
def alleleNone : AlleleCollection :=
  { to_set_A := "", to_param_pssm_thresh := "", to_param_p := "",
    to_param_pssm := fun _ => "" }

/-- Two-symbol coupling model with zero tables and the identity column map. -/
def evX : EVcouplings :=
  { alphabet := ['A', '-'], h := fun _ _ => 0, J := fun _ _ _ _ => 0,
    index_map := fun c => some c }

/-- Three-symbol coupling model with zero tables and the identity column map. -/
def evW : EVcouplings :=
  { alphabet := ['A', 'C', '-'], h := fun _ _ => 0, J := fun _ _ _ _ => 0,
    index_map := fun c => some c }

/-- Coupling model whose column map is empty: every lookup fails. -/
def evF : EVcouplings :=
  { alphabet := ['A', '-'], h := fun _ _ => 0, J := fun _ _ _ _ => 0,
    index_map := fun _ => none }

/-- State with native positions 0 and 1 where the smaller position 0 is
ignored and 1 is not. -/
def stX : AbstractDeimmuPreparation :=
  { wildtype :=
      { sequence := ['A', 'A'], upper := [0, 1], lower := [],
        map_to_uniprot := fun i => i, to_param_N := "2" }
    allele_coll := alleleNone
    num_mutations := 1, epitope_length := 1
    excluded_pos := [], ignored_pos := [0]
    possible_mutations := fun _ => ['A']
    use_single_site_model := false
    single_hi := fun _ _ => 0 }

/-- State with the single native position 0, which is ignored. -/
def stY : AbstractDeimmuPreparation :=
  { wildtype :=
      { sequence := ['A'], upper := [0], lower := [],
        map_to_uniprot := fun i => i, to_param_N := "1" }
    allele_coll := alleleNone
    num_mutations := 1, epitope_length := 1
    excluded_pos := [], ignored_pos := [0]
    possible_mutations := fun _ => ['A']
    use_single_site_model := false
    single_hi := fun _ _ => 0 }

def resY : ExtractResult := (extract_ev_paras evX stY).getD emptyResult

/-- State with the single native position 0 whose allowed-mutation set is
only `A`, used against the three-symbol model `evW`. -/
def stZ : AbstractDeimmuPreparation :=
  { wildtype :=
      { sequence := ['A'], upper := [0], lower := [],
        map_to_uniprot := fun i => i, to_param_N := "1" }
    allele_coll := alleleNone
    num_mutations := 1, epitope_length := 1
    excluded_pos := [], ignored_pos := []
    possible_mutations := fun _ => ['A']
    use_single_site_model := false
    single_hi := fun _ _ => 0 }

def resZ : ExtractResult := (extract_ev_paras evW stZ).getD emptyResult

/-- Richer state: native positions 0 and 1, fallback position 2, single-site
model enabled, nothing ignored. -/
def stW : AbstractDeimmuPreparation :=
  { wildtype :=
      { sequence := ['A', 'C', 'A'], upper := [0, 1], lower := [2],
        map_to_uniprot := fun i => i, to_param_N := "3" }
    allele_coll := alleleNone
    num_mutations := 1, epitope_length := 1
    excluded_pos := [], ignored_pos := []
    possible_mutations := fun _ => ['A', 'C']
    use_single_site_model := true
    single_hi := fun _ _ => 0 }

def resW : ExtractResult := (extract_ev_paras evW stW).getD emptyResult

/-! ## Problem serializer `to_data_file` (lines 246-311) -/
/-- Modelled from the spec: the 20-letter gap-free protein alphabet constant
`ALPHABET_PROTEIN_NOGAP` (from `EVhumanization.utilities`, a module missing
from the sources). -/
def ALPHABET_PROTEIN_NOGAP : List Char := "ACDEFGHIKLMNPQRSTVWY".toList

/-- Modelled from the spec: `to_data_format` (from the `tools` module, missing
from the sources) renders one named block of the solver's plain-text
sets/parameters syntax from a keyword, a name and a content string, as a pure
deterministic string; the two flags mirror its `end`/`new_line` keyword
arguments used at the call sites. -/
def to_data_format (keyword name content : String) (endTok newLine : Bool) : String :=
  keyword ++ " " ++ name ++ " := " ++ content ++
    (if endTok then ";" else "") ++ (if newLine then "\n" else "")

/-- Rendering of a table value. In Python, `str(self.hi[i, aa])` raises
`KeyError` on a missing key; the `none` branch is that error case and is never
reached for the tables this code builds. -/
def showOpt : Option ℚ → String
  | some v => toString v
  | none => "KeyError"

/-- Embedding of `format_eij_indices` (lines 282-285). -/
def format_eij_indices (res : ExtractResult) : String :=
  String.intercalate "\t"
    (res.eij_indices.map (fun ij => toString (ij.1 + 1) ++ " " ++ toString (ij.2 + 1)))

/-- Embedding of `format_hi` (lines 287-292). -/
def format_hi (res : ExtractResult) : String :=
  "\n" ++ String.intercalate "\n"
    (res.hi_indices.map (fun i =>
      toString (i + 1) ++ " " ++ String.intercalate " "
        (ALPHABET_PROTEIN_NOGAP.map (fun aa => showOpt (dictOf res.hi (i, aa))))))

/-- Embedding of `format_hi_indices` (lines 294-296). -/
def format_hi_indices (res : ExtractResult) : String :=
  String.intercalate "\t" (res.hi_indices.map (fun i => toString (i + 1)))

/-- Embedding of `format_eij` (lines 298-311). -/
def format_eij (st : AbstractDeimmuPreparation) (res : ExtractResult) : String :=
  "\n" ++ String.join (res.eij_indices.map (fun ij =>
    to_data_format
      ("[" ++ toString (ij.1 + 1) ++ "," ++ toString (ij.2 + 1) ++ ",*,*]:")
      (String.intercalate "\t" ((st.possible_mutations ij.2).map toString))
      ("\n" ++ String.join ((st.possible_mutations ij.1).map (fun ai =>
        toString ai ++ "\t" ++ String.intercalate "\t"
          ((st.possible_mutations ij.2).map (fun aj =>
            showOpt (dictOf res.eij (ij.1, ij.2, ai, aj)))) ++ "\n")))
      false false))

def sectionHeader (title : String) : String :=
  "##################################\n#\n# " ++ title ++
    "\n#\n##################################\n\n"

/-- Embedding of `to_data_file` (lines 246-280): all sections, in the file's fixed order. -/
def to_data_file (st : AbstractDeimmuPreparation) (res : ExtractResult) : String :=
  sectionHeader "Sets I"
  ++ to_data_format "set" "SIGMA"
      (String.intercalate " " (ALPHABET_PROTEIN_NOGAP.map toString)) true true
  ++ to_data_format "set" "A" st.allele_coll.to_set_A true true ++ "\n"
  ++ sectionHeader "Params I"
  ++ to_data_format "param" "N" st.wildtype.to_param_N true true
  ++ to_data_format "param" "eN" (toString st.epitope_length) true true
  ++ to_data_format "param" "k" (toString st.num_mutations) true true
  ++ to_data_format "param" "pssm_thresh" st.allele_coll.to_param_pssm_thresh true true ++ "\n"
  ++ to_data_format "param" "p" st.allele_coll.to_param_p true true ++ "\n"
  ++ to_data_format "param" "pssm" (st.allele_coll.to_param_pssm st.epitope_length) true true ++ "\n"
  ++ sectionHeader "Sets II"
  ++ to_data_format "set" "Eij" (format_eij_indices res) true true
  ++ to_data_format "set" "E" (format_hi_indices res) true true ++ "\n"
  ++ String.join ((List.range st.wildtype.sequence.length).map (fun i =>
      to_data_format "set" ("WT[" ++ toString (i + 1) ++ "]")
        (toString (st.wildtype.sequence.getD i ' ')) true true))
  ++ String.join ((List.range st.wildtype.sequence.length).map (fun i =>
      to_data_format "set" ("M[" ++ toString (i + 1) ++ "]")
        (String.intercalate " " ((st.possible_mutations i).map toString)) true true))
  ++ "\n"
  ++ sectionHeader "Params II"
  ++ to_data_format "param"
      ("h" ++ ": " ++ String.intercalate " " (ALPHABET_PROTEIN_NOGAP.map toString))
      (format_hi res) true true ++ "\n"
  ++ to_data_format "param" "eij" (format_eij st res) true true
  ++ "\nend;\n\n"

/-- Modelled from the spec: the run driver — extraction followed by the file
write — lives in the (out-of-source) callers; per the spec a configuration
error must abort before any output is written, so the file content exists only
if extraction succeeded. -/
def generate_data_file (ev : EVcouplings) (st : AbstractDeimmuPreparation) :
    Option String :=
  (extract_ev_paras ev st).map (fun res => to_data_file st res)

/-! ### Spec-side one-based serializer, for the 1-based-indexing claim

The following definitions follow the spec's words ("all indices in output are
1-based; all internal indices are 0-based — the conversion happens only at
serialization"): they render position indices verbatim from tables that are
already 1-based. Comparing `to_data_file` with `to_data_file_one_based` after
shifting every internal index by one makes the claim a refinement statement. -/
def format_eij_indices_one_based (res : ExtractResult) : String :=
  String.intercalate "\t"
    (res.eij_indices.map (fun ij => toString ij.1 ++ " " ++ toString ij.2))

def format_hi_one_based (res : ExtractResult) : String :=
  "\n" ++ String.intercalate "\n"
    (res.hi_indices.map (fun i =>
      toString i ++ " " ++ String.intercalate " "
        (ALPHABET_PROTEIN_NOGAP.map (fun aa => showOpt (dictOf res.hi (i, aa))))))

def format_hi_indices_one_based (res : ExtractResult) : String :=
  String.intercalate "\t" (res.hi_indices.map (fun i => toString i))

def format_eij_one_based (st : AbstractDeimmuPreparation) (res : ExtractResult) : String :=
  "\n" ++ String.join (res.eij_indices.map (fun ij =>
    to_data_format
      ("[" ++ toString ij.1 ++ "," ++ toString ij.2 ++ ",*,*]:")
      (String.intercalate "\t" ((st.possible_mutations ij.2).map toString))
      ("\n" ++ String.join ((st.possible_mutations ij.1).map (fun ai =>
        toString ai ++ "\t" ++ String.intercalate "\t"
          ((st.possible_mutations ij.2).map (fun aj =>
            showOpt (dictOf res.eij (ij.1, ij.2, ai, aj)))) ++ "\n")))
      false false))

def to_data_file_one_based (st : AbstractDeimmuPreparation) (res : ExtractResult) : String :=
  sectionHeader "Sets I"
  ++ to_data_format "set" "SIGMA"
      (String.intercalate " " (ALPHABET_PROTEIN_NOGAP.map toString)) true true
  ++ to_data_format "set" "A" st.allele_coll.to_set_A true true ++ "\n"
  ++ sectionHeader "Params I"
  ++ to_data_format "param" "N" st.wildtype.to_param_N true true
  ++ to_data_format "param" "eN" (toString st.epitope_length) true true
  ++ to_data_format "param" "k" (toString st.num_mutations) true true
  ++ to_data_format "param" "pssm_thresh" st.allele_coll.to_param_pssm_thresh true true ++ "\n"
  ++ to_data_format "param" "p" st.allele_coll.to_param_p true true ++ "\n"
  ++ to_data_format "param" "pssm" (st.allele_coll.to_param_pssm st.epitope_length) true true ++ "\n"
  ++ sectionHeader "Sets II"
  ++ to_data_format "set" "Eij" (format_eij_indices_one_based res) true true
  ++ to_data_format "set" "E" (format_hi_indices_one_based res) true true ++ "\n"
  ++ String.join (((List.range st.wildtype.sequence.length).map (fun i => i + 1)).map (fun p =>
      to_data_format "set" ("WT[" ++ toString p ++ "]")
        (toString (st.wildtype.sequence.getD (p - 1) ' ')) true true))
  ++ String.join (((List.range st.wildtype.sequence.length).map (fun i => i + 1)).map (fun p =>
      to_data_format "set" ("M[" ++ toString p ++ "]")
        (String.intercalate " " ((st.possible_mutations p).map toString)) true true))
  ++ "\n"
  ++ sectionHeader "Params II"
  ++ to_data_format "param"
      ("h" ++ ": " ++ String.intercalate " " (ALPHABET_PROTEIN_NOGAP.map toString))
      (format_hi_one_based res) true true ++ "\n"
  ++ to_data_format "param" "eij" (format_eij_one_based st res) true true
  ++ "\nend;\n\n"

/-- Shift every internal position index of the extracted tables by one. -/
def shift_result (res : ExtractResult) : ExtractResult :=
  { hi_indices := res.hi_indices.map (fun i => i + 1)
    hi := res.hi.map (fun kv => ((kv.1.1 + 1, kv.1.2), kv.2))
    eij_indices := res.eij_indices.map (fun ij => (ij.1 + 1, ij.2 + 1))
    eij := res.eij.map (fun kv => ((kv.1.1 + 1, kv.1.2.1 + 1, kv.1.2.2), kv.2)) }

/-- Re-index the per-position allowed-mutation table to 1-based positions. -/
def shift_state (st : AbstractDeimmuPreparation) : AbstractDeimmuPreparation :=
  { st with possible_mutations := fun p => st.possible_mutations (p - 1) }

/-- Variant of `stW` differing only in components `to_data_file` never reads
(excluded/ignored positions, the single-site toggle and table). -/
def stW2 : AbstractDeimmuPreparation :=
  { stW with
    excluded_pos := [3]
    ignored_pos := [5]
    use_single_site_model := false
    single_hi := fun _ _ => 1 }

/-- Alignment used by the frequency witnesses: sequence 0 is `A`, sequence 1
is a lowercase `c`, in every column. -/
def matrixW : ℕ → ℕ → Char := fun s _ => if s = 0 then 'A' else 'c'

/-! ## Single-site model fitter `_independent_model` (lines 20-64)

The fitter is numeric code: its objective `_log_post` and gradient `_gradient`
are modelled over the reals; the external optimizer `fmin_bfgs` is an abstract
parameter, with the zero starting vector and per-row independence explicit. -/
/-- Embedding of `_log_post` (lines 37-43): `N * (logZ - (fi * x).sum()) + lambda_h * (x ** 2).sum()`
with `logZ = log(exp(x).sum())`. -/
noncomputable def log_post (n : ℕ) (fi : Fin n → ℝ) (lambda_h N : ℝ)
    (x : Fin n → ℝ) : ℝ :=
  N * (Real.log (∑ a, Real.exp (x a)) - ∑ a, fi a * x a) +
    lambda_h * ∑ a, x a ^ 2

/-- Embedding of `_gradient` (lines 45-52): `N * (P - fi) + lambda_h * 2 * x` with
`P = exp(x) / Z`. -/
noncomputable def gradient (n : ℕ) (fi : Fin n → ℝ) (lambda_h N : ℝ)
    (x : Fin n → ℝ) (b : Fin n) : ℝ :=
  N * (Real.exp (x b) / ∑ a, Real.exp (x a) - fi b) + lambda_h * 2 * x b

/-- Embedding of `_independent_model` (lines 20-64): `h_i = zeros((L, num_symbols))`, then
each row `i < L` is fit independently by `fmin_bfgs(_log_post, x0, _gradient,
args=(f_i[i], lambda_h, N_eff))` with `x0` the zero vector. -/
noncomputable def independent_model (n : ℕ)
    (fmin_bfgs : ((Fin n → ℝ) → ℝ) → ((Fin n → ℝ) → Fin n → ℝ) →
      (Fin n → ℝ) → Fin n → ℝ)
    (f_i : ℕ → Fin n → ℝ) (lambda_h N_eff : ℝ) (L : ℕ) : ℕ → Fin n → ℝ :=
  fun i =>
    if i < L then
      fmin_bfgs (log_post n (f_i i) lambda_h N_eff)
        (fun x => gradient n (f_i i) lambda_h N_eff x) (fun _ => 0)
    else fun _ => 0

/-- All-uppercase variant of the witness alignment. -/
def matrixU : ℕ → ℕ → Char := fun s _ => if s = 0 then 'A' else 'C'

theorem dictOf_isSome_iff {K V : Type} [DecidableEq K] (l : List (K × V)) (k : K) :
    (dictOf l k).isSome = true ↔ k ∈ l.map Prod.fst := by
  induction l with
  | nil => simp [dictOf]
  | cons kv l ih =>
    cases h : dictOf l k with
    | some v =>
      rw [h] at ih
      simp only [Option.isSome_some, true_iff] at ih
      simp [dictOf, h, ih]
    | none =>
      rw [h] at ih
      simp only [Option.isSome_none, Bool.false_eq_true, false_iff] at ih
      by_cases hk : k = kv.1
      · subst hk
        simp [dictOf, h]
      · simp [dictOf, h, hk, ih]

theorem dictOf_mem {K V : Type} [DecidableEq K] {l : List (K × V)} {k : K} {v : V}
    (h : dictOf l k = some v) : (k, v) ∈ l := by
  induction l with
  | nil => simp [dictOf] at h
  | cons kv l ih =>
    simp only [dictOf] at h
    cases hl : dictOf l k with
    | some w =>
      simp only [hl] at h
      injection h with hv
      subst hv
      exact List.mem_cons_of_mem _ (ih hl)
    | none =>
      simp only [hl] at h
      by_cases hk : k = kv.1
      · rw [if_pos hk] at h
        injection h with hv
        subst hv
        rw [hk]
        exact List.mem_cons_self kv l
      · rw [if_neg hk] at h
        exact absurd h (by simp)

theorem dictOf_eq_some_of_const {K V : Type} [DecidableEq K] {l : List (K × V)} {k : K} {v : V}
    (hmem : k ∈ l.map Prod.fst) (hconst : ∀ kv ∈ l, kv.1 = k → kv.2 = v) :
    dictOf l k = some v := by
  induction l with
  | nil => simp at hmem
  | cons kv l ih =>
    simp only [List.map_cons, List.mem_cons] at hmem
    simp only [dictOf]
    cases hl : dictOf l k with
    | some w =>
      simp only []
      have := dictOf_mem hl
      have hw : w = v := hconst (k, w) (List.mem_cons_of_mem _ this) rfl
      rw [hw]
    | none =>
      simp only []
      have hnot : k ∉ l.map Prod.fst := by
        intro hm
        have := ih hm (fun kv2 hk2 => hconst kv2 (List.mem_cons_of_mem _ hk2))
        rw [hl] at this
        cases this
      rcases hmem with hmem | hmem
      · rw [if_pos hmem]
        exact congrArg some (hconst kv (List.mem_cons_self kv l) hmem.symm)
      · exact absurd hmem hnot

/-- Re-keying an association list along an injective key transformation
commutes with lookup. -/
theorem dictOf_map_key {K K' V : Type} [DecidableEq K] [DecidableEq K']
    (g : K → K') (hg : Function.Injective g) (l : List (K × V)) (k : K) :
    dictOf (l.map (fun kv => (g kv.1, kv.2))) (g k) = dictOf l k := by
  induction l with
  | nil => simp [dictOf]
  | cons kv l ih =>
    simp only [List.map_cons, dictOf, ih]
    cases dictOf l k with
    | some v => rfl
    | none => simp [hg.eq_iff]

theorem freqStep_apply (ev : EVcouplings) (matrix : ℕ → ℕ → Char) (s c : ℕ)
    (fi : ℕ → ℕ → ℚ) (i k : ℕ) :
    freqStep ev matrix s c fi i k =
      fi i k + if c = i ∧ freqHits ev matrix s i k then 1 else 0 := by
  unfold freqStep freqHits
  by_cases hex : (matrix s c).toUpper ∈ excluded_symbols
  · rw [if_pos hex]
    by_cases hc : c = i
    · subst hc
      simp [hex]
    · simp [hc]
  · rw [if_neg hex]
    by_cases hc : c = i
    · subst hc
      simp only [hex, not_false_iff, true_and, and_true]
      by_cases hk : k = ev.alphabet_map (matrix s c).toUpper <;> simp [hk]
    · simp only [hc, false_and, if_false, add_zero]
      rw [if_neg (fun h => hc h.1.symm)]

theorem freq_inner_notMem (ev : EVcouplings) (matrix : ℕ → ℕ → Char) (s : ℕ)
    (cols : List ℕ) (fi : ℕ → ℕ → ℚ) (i k : ℕ) (h : i ∉ cols) :
    (cols.foldl (fun fi c => freqStep ev matrix s c fi) fi) i k = fi i k := by
  induction cols generalizing fi with
  | nil => rfl
  | cons c rest ih =>
    simp only [List.mem_cons, not_or] at h
    simp only [List.foldl_cons, ih _ h.2, freqStep_apply]
    rw [if_neg (fun hx => h.1 hx.1.symm)]
    ring

theorem freq_inner_mem (ev : EVcouplings) (matrix : ℕ → ℕ → Char) (s : ℕ)
    (cols : List ℕ) (fi : ℕ → ℕ → ℚ) (i k : ℕ) (hnd : cols.Nodup) (h : i ∈ cols) :
    (cols.foldl (fun fi c => freqStep ev matrix s c fi) fi) i k =
      fi i k + if freqHits ev matrix s i k then 1 else 0 := by
  induction cols generalizing fi with
  | nil => cases h
  | cons c rest ih =>
    rcases List.nodup_cons.mp hnd with ⟨hc, hrest⟩
    simp only [List.foldl_cons]
    by_cases hci : c = i
    · subst hci
      rw [freq_inner_notMem ev matrix s rest _ c k hc, freqStep_apply]
      simp
    · have hi : i ∈ rest := by
        rcases List.mem_cons.mp h with h1 | h1
        · exact absurd h1.symm hci
        · exact h1
      rw [ih _ hrest hi, freqStep_apply, if_neg (fun hx => hci hx.1)]
      ring

theorem freqCounts_eq_count (ev : EVcouplings) (matrix : ℕ → ℕ → Char) (N L : ℕ)
    (i k : ℕ) (hiL : i < L) :
    freqCounts ev matrix N L i k =
      ((List.range N).countP (fun s => decide (freqHits ev matrix s i k)) : ℚ) := by
  unfold freqCounts
  have key : ∀ (seqs : List ℕ) (fi : ℕ → ℕ → ℚ),
      (seqs.foldl
        (fun fi s => (List.range L).foldl (fun fi c => freqStep ev matrix s c fi) fi) fi) i k =
      fi i k + (seqs.countP (fun s => decide (freqHits ev matrix s i k)) : ℚ) := by
    intro seqs
    induction seqs with
    | nil => intro fi; simp
    | cons s rest ih =>
      intro fi
      simp only [List.foldl_cons, ih]
      rw [freq_inner_mem ev matrix s (List.range L) fi i k (List.nodup_range L)
        (List.mem_range.mpr hiL)]
      push_cast [List.countP_cons]
      by_cases hh : freqHits ev matrix s i k
      · simp only [hh, decide_eq_true_eq, if_true, if_pos]
        ring
      · simp [hh]
  have := key (List.range N) (fun _ _ => 0)
  simpa using this

theorem optMapM_eq_none_of_mem {α β : Type} {f : α → Option β} {l : List α} {a : α}
    (ha : a ∈ l) (hf : f a = none) : optMapM f l = none := by
  induction l with
  | nil => cases ha
  | cons b l ih =>
    rcases List.mem_cons.mp ha with h | h
    · subst h
      simp [optMapM, hf]
    · simp only [optMapM, ih h]
      cases f b <;> rfl

theorem optMapM_mem_iff {α β : Type} {f : α → Option β} {l : List α} {bs : List β}
    (h : optMapM f l = some bs) (b : β) :
    b ∈ bs ↔ ∃ a ∈ l, f a = some b := by
  induction l generalizing bs with
  | nil =>
    simp only [optMapM] at h
    injection h with h
    subst h
    simp
  | cons a l ih =>
    simp only [optMapM] at h
    cases hfa : f a with
    | none => rw [hfa] at h; cases h
    | some b0 =>
      rw [hfa] at h
      simp only [Option.bind_eq_bind, Option.some_bind] at h
      cases hrest : optMapM f l with
      | none => rw [hrest] at h; cases h
      | some bs0 =>
        rw [hrest] at h
        injection h with h
        subst h
        simp only [List.mem_cons, ih hrest]
        constructor
        · rintro (rfl | ⟨a1, ha1, hfa1⟩)
          · exact ⟨a, Or.inl rfl, hfa⟩
          · exact ⟨a1, Or.inr ha1, hfa1⟩
        · rintro ⟨a1, ha1, hfa1⟩
          rcases ha1 with rfl | ha1
          · left
            rw [hfa] at hfa1
            injection hfa1 with hfa1
            exact hfa1.symm
          · right
            exact ⟨a1, ha1, hfa1⟩

theorem optMapM_map_eq {α β γ : Type} {f : α → Option β} {l : List α} {bs : List β}
    (h : optMapM f l = some bs) (g : β → γ) (g0 : α → γ)
    (hgf : ∀ a b, f a = some b → g b = g0 a) : bs.map g = l.map g0 := by
  induction l generalizing bs with
  | nil =>
    simp only [optMapM] at h
    injection h with h
    subst h
    rfl
  | cons a l ih =>
    simp only [optMapM] at h
    cases hfa : f a with
    | none => rw [hfa] at h; cases h
    | some b0 =>
      rw [hfa] at h
      simp only [Option.bind_eq_bind, Option.some_bind] at h
      cases hrest : optMapM f l with
      | none => rw [hrest] at h; cases h
      | some bs0 =>
        rw [hrest] at h
        injection h with h
        subst h
        simp only [List.map_cons, ih hrest, hgf a b0 hfa]

/-! ## Membership characterizations for the extracted tables -/
theorem mem_eij_indices_iff (st : AbstractDeimmuPreparation) (a b : ℕ) :
    (a, b) ∈ eij_indices st ↔
      a ∈ st.wildtype.upper ∧ b ∈ st.wildtype.upper ∧ a < b ∧
        a ∉ st.ignored_pos := by
  unfold eij_indices
  rw [List.mem_insertionSort, List.mem_dedup]
  constructor
  · intro h
    rcases List.mem_flatMap.mp h with ⟨i, hiu, hj⟩
    rcases List.mem_filterMap.mp hj with ⟨j, hju, hEq⟩
    by_cases hc : i ≠ j ∧ ((i < j ∧ i ∉ st.ignored_pos) ∨ (j < i ∧ j ∉ st.ignored_pos))
    · rw [if_pos hc] at hEq
      injection hEq with hEq
      rcases hc with ⟨hne, hcond⟩
      rcases Nat.lt_or_ge i j with hij | hij
      · rw [if_pos hij] at hEq
        rcases Prod.mk.injEq .. ▸ hEq with ⟨rfl, rfl⟩
        rcases hcond with ⟨_, hig⟩ | ⟨hji, _⟩
        · exact ⟨hiu, hju, hij, hig⟩
        · exact absurd hij (Nat.not_lt.mpr (Nat.le_of_lt hji))
      · have hji : j < i := Nat.lt_of_le_of_ne hij (fun h => hne h.symm)
        rw [if_neg (Nat.not_lt.mpr hij)] at hEq
        rcases Prod.mk.injEq .. ▸ hEq with ⟨rfl, rfl⟩
        rcases hcond with ⟨hij2, _⟩ | ⟨_, hig⟩
        · exact absurd hij2 (Nat.not_lt.mpr (Nat.le_of_lt hji))
        · exact ⟨hju, hiu, hji, hig⟩
    · rw [if_neg hc] at hEq
      cases hEq
  · rintro ⟨ha, hb, hab, hig⟩
    refine List.mem_flatMap.mpr ⟨a, ha, ?_⟩
    refine List.mem_filterMap.mpr ⟨b, hb, ?_⟩
    rw [if_pos ⟨Nat.ne_of_lt hab, Or.inl ⟨hab, hig⟩⟩, if_pos hab]

theorem eij_indices_sorted (st : AbstractDeimmuPreparation) :
    List.Sorted pairLe (eij_indices st) :=
  List.sorted_insertionSort pairLe _

theorem eij_indices_nodup (st : AbstractDeimmuPreparation) :
    (eij_indices st).Nodup :=
  (List.perm_insertionSort pairLe _).nodup_iff.mpr (List.nodup_dedup _)

/-- Claim C1, counterexample: in `stX` the native positions are 0 and 1, the
smaller endpoint 0 is ignored while 1 is not; the claim requires the pair
(0, 1) to be in `eij_indices` (at least one endpoint non-ignored), but the
code omits every pair whose smaller endpoint is ignored. -/
theorem C1_counterexample :
    0 ∈ stX.wildtype.upper ∧ 1 ∈ stX.wildtype.upper ∧ 0 ∈ stX.ignored_pos ∧
      1 ∉ stX.ignored_pos ∧ (0, 1) ∉ eij_indices stX := by
  decide

/-- Claim C1 (amended): `eij_indices` contains exactly the unordered pairs
{i, j} of distinct native (upper) wildtype positions, stored with the smaller
index first, deduplicated and sorted ascending, such that the SMALLER of the
two positions is not in the ignored set (a pair whose smaller endpoint is
ignored is omitted even when the larger endpoint is not ignored). -/
theorem C1_eij_indices_exact (st : AbstractDeimmuPreparation) :
    (∀ a b : ℕ, (a, b) ∈ eij_indices st ↔
      a ∈ st.wildtype.upper ∧ b ∈ st.wildtype.upper ∧ a < b ∧
        a ∉ st.ignored_pos)
    ∧ List.Sorted pairLe (eij_indices st)
    ∧ (eij_indices st).Nodup :=
  ⟨mem_eij_indices_iff st, eij_indices_sorted st, eij_indices_nodup st⟩

theorem extract_ev_paras_eq {ev : EVcouplings} {st : AbstractDeimmuPreparation}
    {res : ExtractResult} (h : extract_ev_paras ev st = some res) :
    ∃ hiN eijL,
      optMapM (hiEntryNative ev st) (hiNativePairs ev st) = some hiN ∧
      optMapM (eijEntry ev st) (eijQuads st) = some eijL ∧
      res.hi_indices =
        List.insertionSort (fun a b => a ≤ b)
          (hi_indices_upper st ++ fallback_indices st) ∧
      res.hi = hiN ++ hiFallback ev st ∧
      res.eij_indices = eij_indices st ∧
      res.eij = eijL := by
  unfold extract_ev_paras at h
  cases h1 : optMapM (hiEntryNative ev st) (hiNativePairs ev st) with
  | none => rw [h1] at h; cases h
  | some hiN =>
    rw [h1] at h
    simp only [Option.bind_eq_bind, Option.some_bind] at h
    cases h2 : optMapM (eijEntry ev st) (eijQuads st) with
    | none => rw [h2] at h; cases h
    | some eijL =>
      rw [h2] at h
      simp only [Option.bind_eq_bind, Option.some_bind] at h
      injection h with h
      subst h
      exact ⟨hiN, eijL, rfl, rfl, rfl, rfl, rfl, rfl⟩

theorem hiEntryNative_fst {ev : EVcouplings} {st : AbstractDeimmuPreparation}
    {p : ℕ × Char} {b : (ℕ × Char) × ℚ} (hb : hiEntryNative ev st p = some b) :
    b.1 = p := by
  unfold hiEntryNative at hb
  cases hin : ev.index_map (st.wildtype.map_to_uniprot p.1) with
  | none => rw [hin] at hb; cases hb
  | some col =>
    rw [hin] at hb
    simp only [Option.bind_eq_bind, Option.some_bind] at hb
    injection hb with hb
    rw [← hb]

theorem eijEntry_fst {ev : EVcouplings} {st : AbstractDeimmuPreparation}
    {q : (ℕ × ℕ) × Char × Char} {b : (ℕ × ℕ × Char × Char) × ℚ}
    (hb : eijEntry ev st q = some b) :
    b.1 = (q.1.1, q.1.2, q.2.1, q.2.2) := by
  unfold eijEntry at hb
  cases hi : ev.index_map (st.wildtype.map_to_uniprot q.1.1) with
  | none => rw [hi] at hb; cases hb
  | some ci =>
    rw [hi] at hb
    simp only [Option.bind_eq_bind, Option.some_bind] at hb
    cases hj : ev.index_map (st.wildtype.map_to_uniprot q.1.2) with
    | none => rw [hj] at hb; cases hb
    | some cj =>
      rw [hj] at hb
      simp only [Option.bind_eq_bind, Option.some_bind] at hb
      injection hb with hb
      rw [← hb]

theorem mem_hiNativePairs_iff (ev : EVcouplings) (st : AbstractDeimmuPreparation)
    (i : ℕ) (aa : Char) :
    (i, aa) ∈ hiNativePairs ev st ↔ i ∈ st.wildtype.upper ∧ aa ∈ ev.nonGap := by
  unfold hiNativePairs
  constructor
  · intro h
    rcases List.mem_flatMap.mp h with ⟨i0, hi0, hmem⟩
    rcases List.mem_map.mp hmem with ⟨a0, ha0, hEq⟩
    rcases Prod.mk.injEq .. ▸ hEq with ⟨rfl, rfl⟩
    exact ⟨hi0, ha0⟩
  · rintro ⟨hi, ha⟩
    exact List.mem_flatMap.mpr ⟨i, hi, List.mem_map.mpr ⟨aa, ha, rfl⟩⟩

theorem mem_fallback_indices_iff (st : AbstractDeimmuPreparation) (i : ℕ) :
    i ∈ fallback_indices st ↔
      st.use_single_site_model = true ∧ i ∈ st.wildtype.lower ∧
        i ∉ st.ignored_pos := by
  unfold fallback_indices
  cases hu : st.use_single_site_model with
  | false => simp
  | true => simp [List.mem_filter]

theorem mem_map_fst_hiFallback_iff (ev : EVcouplings)
    (st : AbstractDeimmuPreparation) (i : ℕ) (aa : Char) :
    (i, aa) ∈ (hiFallback ev st).map Prod.fst ↔
      (st.use_single_site_model = true ∧ i ∈ st.wildtype.lower ∧
        i ∉ st.ignored_pos) ∧ aa ∈ ev.nonGap := by
  unfold hiFallback
  rw [← mem_fallback_indices_iff]
  constructor
  · intro h
    rcases List.mem_map.mp h with ⟨kv, hkv, hEq⟩
    rcases List.mem_flatMap.mp hkv with ⟨i0, hi0, hmem⟩
    rcases List.mem_map.mp hmem with ⟨a0, ha0, hEq2⟩
    subst hEq2
    rcases Prod.mk.injEq .. ▸ hEq with ⟨rfl, rfl⟩
    exact ⟨hi0, ha0⟩
  · rintro ⟨hi, ha⟩
    refine List.mem_map.mpr ⟨((i, aa), -st.single_hi i (ev.alphabet_map aa)), ?_, rfl⟩
    exact List.mem_flatMap.mpr ⟨i, hi, List.mem_map.mpr ⟨aa, ha, rfl⟩⟩

theorem mem_hi_indices_iff {ev : EVcouplings} {st : AbstractDeimmuPreparation}
    {res : ExtractResult} (h : extract_ev_paras ev st = some res) (i : ℕ) :
    i ∈ res.hi_indices ↔
      (i ∈ st.wildtype.upper ∨
        (st.use_single_site_model = true ∧ i ∈ st.wildtype.lower)) ∧
      i ∉ st.ignored_pos := by
  rcases extract_ev_paras_eq h with ⟨hiN, eijL, _, _, hidx, _, _, _⟩
  rw [hidx, List.mem_insertionSort, List.mem_append]
  unfold hi_indices_upper
  rw [mem_fallback_indices_iff, List.mem_filter]
  simp only [decide_not, Bool.not_eq_true', decide_eq_false_iff_not]
  constructor
  · rintro (⟨h1, h2⟩ | ⟨h1, h2, h3⟩)
    · exact ⟨Or.inl h1, h2⟩
    · exact ⟨Or.inr ⟨h1, h2⟩, h3⟩
  · rintro ⟨h1 | ⟨h1, h2⟩, h3⟩
    · exact Or.inl ⟨h1, h3⟩
    · exact Or.inr ⟨h1, h2, h3⟩

theorem hi_key_mem_iff {ev : EVcouplings} {st : AbstractDeimmuPreparation}
    {res : ExtractResult} (h : extract_ev_paras ev st = some res)
    (i : ℕ) (aa : Char) :
    (dictOf res.hi (i, aa)).isSome = true ↔
      (i ∈ st.wildtype.upper ∨
        (st.use_single_site_model = true ∧ i ∈ st.wildtype.lower ∧
          i ∉ st.ignored_pos)) ∧ aa ∈ ev.nonGap := by
  rcases extract_ev_paras_eq h with ⟨hiN, eijL, hN, _, _, hhi, _, _⟩
  rw [hhi, dictOf_isSome_iff, List.map_append, List.mem_append]
  have hfst : hiN.map Prod.fst = hiNativePairs ev st := by
    have := optMapM_map_eq hN Prod.fst id
      (fun a b hb => hiEntryNative_fst hb)
    rwa [List.map_id] at this
  rw [hfst, mem_hiNativePairs_iff, mem_map_fst_hiFallback_iff]
  tauto

/-- Claim C2, counterexample: in `stY` the single native position 0 is
ignored, yet after `extract_ev_paras` the `hi` table contains the key
`(0, 'A')` — the native-path loop iterates over all upper positions without
filtering out ignored ones. -/
theorem C2_counterexample :
    extract_ev_paras evX stY = some resY ∧ 0 ∈ stY.ignored_pos ∧
      (dictOf resY.hi (0, 'A')).isSome = true :=
  ⟨rfl, by decide, by decide⟩

/-- Claim C2 (amended): after a successful `extract_ev_paras` run, the `hi`
table holds a key `(i, aa)` exactly when `aa` is a non-gap alphabet symbol and
either `i` is a native (upper) position — REGARDLESS of whether it is ignored —
or the single-site fallback is enabled and `i` is a non-ignored lower position;
the restriction to non-ignored positions holds only on the fallback path and
for the separate `hi_indices` list, every element of which is non-ignored. -/
theorem C2_hi_keys (ev : EVcouplings) (st : AbstractDeimmuPreparation)
    (res : ExtractResult) (h : extract_ev_paras ev st = some res) :
    (∀ i aa, (dictOf res.hi (i, aa)).isSome = true ↔
      (i ∈ st.wildtype.upper ∨
        (st.use_single_site_model = true ∧ i ∈ st.wildtype.lower ∧
          i ∉ st.ignored_pos)) ∧ aa ∈ ev.nonGap)
    ∧ (∀ i ∈ res.hi_indices, i ∉ st.ignored_pos) :=
  ⟨fun i aa => hi_key_mem_iff h i aa,
   fun i hi => ((mem_hi_indices_iff h i).mp hi).2⟩

theorem C2_witness :
    extract_ev_paras evW stW = some resW ∧
      ((dictOf resW.hi (0, 'A')).isSome = true ↔
        (0 ∈ stW.wildtype.upper ∨
          (stW.use_single_site_model = true ∧ 0 ∈ stW.wildtype.lower ∧
            0 ∉ stW.ignored_pos)) ∧ 'A' ∈ evW.nonGap) :=
  ⟨rfl, (C2_hi_keys evW stW resW rfl).1 0 'A'⟩

theorem mem_eijQuads_iff (st : AbstractDeimmuPreparation)
    (i j : ℕ) (ai aj : Char) :
    ((i, j), ai, aj) ∈ eijQuads st ↔
      (i, j) ∈ eij_indices st ∧ ai ∈ st.possible_mutations i ∧
        aj ∈ st.possible_mutations j := by
  unfold eijQuads
  constructor
  · intro h
    rcases List.mem_flatMap.mp h with ⟨ij, hij, hmem⟩
    rcases List.mem_flatMap.mp hmem with ⟨a0, ha0, hmem2⟩
    rcases List.mem_map.mp hmem2 with ⟨b0, hb0, hEq⟩
    have h1 : ij = (i, j) := congrArg Prod.fst hEq
    have h2 : a0 = ai := congrArg (fun q => q.2.1) hEq
    have h3 : b0 = aj := congrArg (fun q => q.2.2) hEq
    subst h1 h2 h3
    exact ⟨hij, ha0, hb0⟩
  · rintro ⟨hij, hai, haj⟩
    exact List.mem_flatMap.mpr ⟨(i, j), hij,
      List.mem_flatMap.mpr ⟨ai, hai, List.mem_map.mpr ⟨aj, haj, rfl⟩⟩⟩

theorem eij_key_mem {ev : EVcouplings} {st : AbstractDeimmuPreparation}
    {res : ExtractResult} (h : extract_ev_paras ev st = some res)
    (i j : ℕ) (ai aj : Char)
    (hk : (dictOf res.eij (i, j, ai, aj)).isSome = true) :
    (i, j) ∈ eij_indices st ∧ ai ∈ st.possible_mutations i ∧
      aj ∈ st.possible_mutations j := by
  rcases extract_ev_paras_eq h with ⟨hiN, eijL, _, hE, _, _, _, heij⟩
  rw [heij, dictOf_isSome_iff] at hk
  have hfst : eijL.map Prod.fst =
      (eijQuads st).map (fun q => (q.1.1, q.1.2, q.2.1, q.2.2)) :=
    optMapM_map_eq hE Prod.fst (fun q => (q.1.1, q.1.2, q.2.1, q.2.2))
      (fun a b hb => eijEntry_fst hb)
  rw [hfst] at hk
  rcases List.mem_map.mp hk with ⟨q, hq, hEq⟩
  rcases q with ⟨⟨qi, qj⟩, qa, qb⟩
  simp only [Prod.mk.injEq] at hEq
  rcases hEq with ⟨rfl, rfl, rfl, rfl⟩
  exact (mem_eijQuads_iff st qi qj qa qb).mp hq

/-- Claim C3, counterexample: in `stZ` (against the three-symbol model `evW`)
the allowed-mutation set of position 0 is only `A`, yet the `hi` table
contains the key `(0, 'C')`: the native `hi` loop ranges over the full non-gap
alphabet, not over `possible_mutations`. -/
theorem C3_counterexample :
    extract_ev_paras evW stZ = some resZ ∧
      (dictOf resZ.hi (0, 'C')).isSome = true ∧
      'C' ∉ stZ.possible_mutations 0 :=
  ⟨rfl, by decide, by decide⟩

/-- Claim C3 (amended): in the `eij` table every key's amino acids do belong
to the respective positions' allowed-mutation sets, but in the `hi` table the
amino acid of a key ranges over the full non-gap alphabet (it need not belong
to `possible_mutations`). -/
theorem C3_keys (ev : EVcouplings) (st : AbstractDeimmuPreparation)
    (res : ExtractResult) (h : extract_ev_paras ev st = some res) :
    (∀ i j ai aj, (dictOf res.eij (i, j, ai, aj)).isSome = true →
      ai ∈ st.possible_mutations i ∧ aj ∈ st.possible_mutations j)
    ∧ (∀ i aa, (dictOf res.hi (i, aa)).isSome = true → aa ∈ ev.nonGap) :=
  ⟨fun i j ai aj hk => (eij_key_mem h i j ai aj hk).2,
   fun i aa hk => ((hi_key_mem_iff h i aa).mp hk).2⟩

theorem C3_witness :
    extract_ev_paras evW stW = some resW ∧
      (dictOf resW.eij (0, 1, 'A', 'C')).isSome = true ∧
      ('A' ∈ stW.possible_mutations 0 ∧ 'C' ∈ stW.possible_mutations 1) :=
  ⟨rfl, by decide, (C3_keys evW stW resW rfl).1 0 1 'A' 'C' (by decide)⟩

theorem hi_value_cases {ev : EVcouplings} {st : AbstractDeimmuPreparation}
    {res : ExtractResult} (h : extract_ev_paras ev st = some res)
    (i : ℕ) (ai : Char) (v : ℚ) (hv : dictOf res.hi (i, ai) = some v) :
    (∃ col, ev.index_map (st.wildtype.map_to_uniprot i) = some col ∧
      v = -ev.h col (ev.alphabet_map ai))
    ∨ v = -st.single_hi i (ev.alphabet_map ai) := by
  rcases extract_ev_paras_eq h with ⟨hiN, eijL, hN, _, _, hhi, _, _⟩
  rw [hhi] at hv
  rcases List.mem_append.mp (dictOf_mem hv) with hmem | hmem
  · rcases (optMapM_mem_iff hN _).mp hmem with ⟨p, _, hp⟩
    unfold hiEntryNative at hp
    cases hin : ev.index_map (st.wildtype.map_to_uniprot p.1) with
    | none => rw [hin] at hp; cases hp
    | some col =>
      rw [hin] at hp
      simp only [Option.bind_eq_bind, Option.some_bind] at hp
      injection hp with hp
      have h1 : p.1 = i := congrArg (fun x => x.1.1) hp
      have h2 : p.2 = ai := congrArg (fun x => x.1.2) hp
      have h3 : -ev.h col (ev.alphabet_map p.2) = v := congrArg Prod.snd hp
      rw [h1] at hin
      rw [h2] at h3
      exact Or.inl ⟨col, hin, h3.symm⟩
  · unfold hiFallback at hmem
    rcases List.mem_flatMap.mp hmem with ⟨i0, _, hmem2⟩
    rcases List.mem_map.mp hmem2 with ⟨a0, _, hEq⟩
    have h1 : i0 = i := congrArg (fun x => x.1.1) hEq
    have h2 : a0 = ai := congrArg (fun x => x.1.2) hEq
    have h3 : -st.single_hi i0 (ev.alphabet_map a0) = v := congrArg Prod.snd hEq
    rw [h1, h2] at h3
    exact Or.inr h3.symm

theorem eij_value_eq {ev : EVcouplings} {st : AbstractDeimmuPreparation}
    {res : ExtractResult} (h : extract_ev_paras ev st = some res)
    (i j : ℕ) (ai aj : Char) (v : ℚ)
    (hv : dictOf res.eij (i, j, ai, aj) = some v) :
    ∃ ci cj, ev.index_map (st.wildtype.map_to_uniprot i) = some ci ∧
      ev.index_map (st.wildtype.map_to_uniprot j) = some cj ∧
      v = -ev.J ci cj (ev.alphabet_map ai) (ev.alphabet_map aj) := by
  rcases extract_ev_paras_eq h with ⟨hiN, eijL, _, hE, _, _, _, heij⟩
  rw [heij] at hv
  rcases (optMapM_mem_iff hE _).mp (dictOf_mem hv) with ⟨q, _, hq⟩
  unfold eijEntry at hq
  cases hi1 : ev.index_map (st.wildtype.map_to_uniprot q.1.1) with
  | none => rw [hi1] at hq; cases hq
  | some ci =>
    rw [hi1] at hq
    simp only [Option.bind_eq_bind, Option.some_bind] at hq
    cases hj1 : ev.index_map (st.wildtype.map_to_uniprot q.1.2) with
    | none => rw [hj1] at hq; cases hq
    | some cj =>
      rw [hj1] at hq
      simp only [Option.bind_eq_bind, Option.some_bind] at hq
      injection hq with hq
      have e1 : q.1.1 = i := congrArg (fun x => x.1.1) hq
      have e2 : q.1.2 = j := congrArg (fun x => x.1.2.1) hq
      have e3 : q.2.1 = ai := congrArg (fun x => x.1.2.2.1) hq
      have e4 : q.2.2 = aj := congrArg (fun x => x.1.2.2.2) hq
      have e5 : -ev.J ci cj (ev.alphabet_map q.2.1) (ev.alphabet_map q.2.2) = v :=
        congrArg Prod.snd hq
      rw [e1] at hi1
      rw [e2] at hj1
      rw [e3, e4] at e5
      exact ⟨ci, cj, hi1, hj1, e5.symm⟩

/-- Claim C5: every stored energy value is the exact negation of the
underlying model value — for a `hi` key the value is `-h_i[...]` looked up
through `index_map` and `alphabet_map` (native path) or `-single_hi[...]`
(fallback path), and for an `eij` key the value is `-J_ij[...]` at the mapped
columns and symbol indices. -/
theorem C5_sign_convention (ev : EVcouplings) (st : AbstractDeimmuPreparation)
    (res : ExtractResult) (h : extract_ev_paras ev st = some res) :
    (∀ i ai v, dictOf res.hi (i, ai) = some v →
      (∃ col, ev.index_map (st.wildtype.map_to_uniprot i) = some col ∧
        v = -ev.h col (ev.alphabet_map ai))
      ∨ v = -st.single_hi i (ev.alphabet_map ai))
    ∧ (∀ i j ai aj v, dictOf res.eij (i, j, ai, aj) = some v →
      ∃ ci cj, ev.index_map (st.wildtype.map_to_uniprot i) = some ci ∧
        ev.index_map (st.wildtype.map_to_uniprot j) = some cj ∧
        v = -ev.J ci cj (ev.alphabet_map ai) (ev.alphabet_map aj)) :=
  ⟨fun i ai v hv => hi_value_cases h i ai v hv,
   fun i j ai aj v hv => eij_value_eq h i j ai aj v hv⟩

theorem C5_witness :
    extract_ev_paras evW stW = some resW ∧
      ((∃ col, evW.index_map (stW.wildtype.map_to_uniprot 0) = some col ∧
        -evW.h 0 (evW.alphabet_map 'A') = -evW.h col (evW.alphabet_map 'A'))
      ∨ -evW.h 0 (evW.alphabet_map 'A') = -stW.single_hi 0 (evW.alphabet_map 'A')) :=
  ⟨rfl, (C5_sign_convention evW stW resW rfl).1 0 'A'
    (-evW.h 0 (evW.alphabet_map 'A')) (by rfl)⟩

/-- Claim C7: a wildtype position whose mapped column is absent from the
coupling model's `index_map` makes `extract_ev_paras` abort with an error
(`KeyError`, modelled as `none`) instead of skipping the position, and the run
produces no output file content. -/
theorem C7_missing_index_aborts (ev : EVcouplings) (st : AbstractDeimmuPreparation)
    (i : ℕ) (a : Char) (ha : a ∈ ev.nonGap) (hiu : i ∈ st.wildtype.upper)
    (hfail : ev.index_map (st.wildtype.map_to_uniprot i) = none) :
    extract_ev_paras ev st = none ∧ generate_data_file ev st = none := by
  have hp : (i, a) ∈ hiNativePairs ev st :=
    (mem_hiNativePairs_iff ev st i a).mpr ⟨hiu, ha⟩
  have hent : hiEntryNative ev st (i, a) = none := by
    unfold hiEntryNative
    rw [hfail]
    rfl
  have hN : optMapM (hiEntryNative ev st) (hiNativePairs ev st) = none :=
    optMapM_eq_none_of_mem hp hent
  refine ⟨?_, ?_⟩
  · unfold extract_ev_paras
    rw [hN]
    rfl
  · unfold generate_data_file extract_ev_paras
    rw [hN]
    rfl

theorem C7_witness :
    ('A' ∈ evF.nonGap ∧ 0 ∈ stY.wildtype.upper ∧
      evF.index_map (stY.wildtype.map_to_uniprot 0) = none) ∧
    (extract_ev_paras evF stY = none ∧ generate_data_file evF stY = none) :=
  ⟨⟨by decide, by decide, rfl⟩,
   C7_missing_index_aborts evF stY 0 'A' (by decide) (by decide) rfl⟩

/-- Claim C9: serialization is deterministic — `to_data_file` is a pure
function of the wildtype, allele collection, allowed-mutation table, the two
scalar parameters and the extracted tables, so two invocations on states
agreeing on exactly those components produce byte-identical contents (the key
traversal order is the fixed list order of the tables both times). -/
theorem C9_serialization_deterministic
    (st1 st2 : AbstractDeimmuPreparation) (res1 res2 : ExtractResult)
    (hwt : st1.wildtype = st2.wildtype)
    (hac : st1.allele_coll = st2.allele_coll)
    (hpm : st1.possible_mutations = st2.possible_mutations)
    (hk : st1.num_mutations = st2.num_mutations)
    (he : st1.epitope_length = st2.epitope_length)
    (hres : res1 = res2) :
    to_data_file st1 res1 = to_data_file st2 res2 := by
  cases st1 with
  | mk w1 a1 k1 e1 ex1 ig1 pm1 us1 sh1 =>
    cases st2 with
    | mk w2 a2 k2 e2 ex2 ig2 pm2 us2 sh2 =>
      dsimp only at hwt hac hpm hk he
      subst hwt hac hpm hk he hres
      rfl

theorem C9_witness :
    (stW.wildtype = stW2.wildtype ∧ stW.allele_coll = stW2.allele_coll ∧
      stW.possible_mutations = stW2.possible_mutations ∧
      stW.num_mutations = stW2.num_mutations ∧
      stW.epitope_length = stW2.epitope_length) ∧
    to_data_file stW resW = to_data_file stW2 resW :=
  ⟨⟨rfl, rfl, rfl, rfl, rfl⟩,
   C9_serialization_deterministic stW stW2 resW resW rfl rfl rfl rfl rfl rfl⟩

theorem dictOf_hi_shift (l : List ((ℕ × Char) × ℚ)) (i : ℕ) (aa : Char) :
    dictOf (l.map (fun kv => ((kv.1.1 + 1, kv.1.2), kv.2))) (i + 1, aa) =
      dictOf l (i, aa) := by
  have hginj : Function.Injective (fun k : ℕ × Char => (k.1 + 1, k.2)) := by
    intro a b hab
    simp only [Prod.mk.injEq] at hab
    exact Prod.ext (Nat.add_right_cancel hab.1) hab.2
  exact dictOf_map_key (fun k : ℕ × Char => (k.1 + 1, k.2)) hginj l (i, aa)

theorem dictOf_eij_shift (l : List ((ℕ × ℕ × Char × Char) × ℚ)) (i j : ℕ)
    (ai aj : Char) :
    dictOf (l.map (fun kv => ((kv.1.1 + 1, kv.1.2.1 + 1, kv.1.2.2), kv.2)))
        (i + 1, j + 1, ai, aj) =
      dictOf l (i, j, ai, aj) := by
  have hginj : Function.Injective
      (fun k : ℕ × ℕ × Char × Char => (k.1 + 1, k.2.1 + 1, k.2.2)) := by
    intro a b hab
    simp only [Prod.mk.injEq] at hab
    exact Prod.ext (Nat.add_right_cancel hab.1)
      (Prod.ext (Nat.add_right_cancel hab.2.1) hab.2.2)
  exact dictOf_map_key _ hginj l (i, j, ai, aj)

theorem to_data_file_shift (st : AbstractDeimmuPreparation) (res : ExtractResult) :
    to_data_file st res =
      to_data_file_one_based (shift_state st) (shift_result res) := by
  unfold to_data_file to_data_file_one_based shift_state shift_result
  simp only [format_eij_indices, format_eij_indices_one_based, format_hi,
    format_hi_one_based, format_hi_indices, format_hi_indices_one_based,
    format_eij, format_eij_one_based, List.map_map, Function.comp_def,
    Nat.add_sub_cancel, dictOf_hi_shift, dictOf_eij_shift]

/-- Claim C8: every position index the serializer emits is the corresponding
internal 0-based index plus one — serializing the 0-based state equals the
verbatim (already-1-based) serializer applied to the index-shifted state and
tables, across all sections (`Eij` set, `E` set, per-position `WT`/`M` set
names, `h` rows and `eij` block labels) — while the internal tables themselves
stay 0-based: the extracted index lists are raw wildtype positions. -/
theorem C8_one_based_only_at_serialization (ev : EVcouplings)
    (st : AbstractDeimmuPreparation) (res : ExtractResult)
    (h : extract_ev_paras ev st = some res) :
    to_data_file st res =
      to_data_file_one_based (shift_state st) (shift_result res)
    ∧ (∀ i ∈ res.hi_indices, i ∈ st.wildtype.upper ∨ i ∈ st.wildtype.lower)
    ∧ (∀ ij ∈ res.eij_indices,
        ij.1 ∈ st.wildtype.upper ∧ ij.2 ∈ st.wildtype.upper) := by
  refine ⟨to_data_file_shift st res, ?_, ?_⟩
  · intro i hi
    rcases (mem_hi_indices_iff h i).mp hi with ⟨h1 | ⟨_, h1⟩, _⟩
    · exact Or.inl h1
    · exact Or.inr h1
  · intro ij hij
    rcases extract_ev_paras_eq h with ⟨hiN, eijL, _, _, _, _, heidx, _⟩
    rw [heidx] at hij
    rcases ij with ⟨a, b⟩
    rcases (mem_eij_indices_iff st a b).mp hij with ⟨ha, hb, _, _⟩
    exact ⟨ha, hb⟩

theorem C8_witness :
    extract_ev_paras evW stW = some resW ∧
      (to_data_file stW resW =
        to_data_file_one_based (shift_state stW) (shift_result resW)
      ∧ (∀ i ∈ resW.hi_indices, i ∈ stW.wildtype.upper ∨ i ∈ stW.wildtype.lower)
      ∧ (∀ ij ∈ resW.eij_indices,
          ij.1 ∈ stW.wildtype.upper ∧ ij.2 ∈ stW.wildtype.upper)) :=
  ⟨rfl, C8_one_based_only_at_serialization evW stW resW rfl⟩

theorem countP_cast_eq_sum (N : ℕ) (p : ℕ → Bool) :
    (((List.range N).countP p : ℕ) : ℚ) =
      ∑ s ∈ Finset.range N, (if p s then (1 : ℚ) else 0) := by
  induction N with
  | zero => simp
  | succ n ih =>
    rw [List.range_succ, List.countP_append, Finset.sum_range_succ, ← ih]
    push_cast [List.countP_cons, List.countP_nil]
    by_cases hp : p n <;> simp [hp]

/-- Claim C4: each frequency-matrix cell is the per-column symbol count
(case-normalized, with the five excluded symbols skipped entirely) divided by
the number of sequences `N`; consequently a column with no excluded symbol has
a row summing to 1, and a column of only excluded symbols has a row summing
to 0. -/
theorem C4_frequencies_counts (ev : EVcouplings) (matrix : ℕ → ℕ → Char)
    (N L : ℕ)
    (hvalid : ∀ s < N, ∀ i < L, (matrix s i).toUpper ∉ excluded_symbols →
      (matrix s i).toUpper ∈ ev.alphabet)
    (i : ℕ) (hiL : i < L) :
    (∀ a ∈ ev.alphabet, a ∉ excluded_symbols →
      frequencies ev matrix N L i (ev.alphabet_map a) =
        ((List.range N).countP (fun s => decide ((matrix s i).toUpper = a)) : ℚ) / N)
    ∧ (0 < N → (∀ s < N, (matrix s i).toUpper ∉ excluded_symbols) →
        ∑ k ∈ Finset.range ev.num_symbols, frequencies ev matrix N L i k = 1)
    ∧ ((∀ s < N, (matrix s i).toUpper ∈ excluded_symbols) →
        ∑ k ∈ Finset.range ev.num_symbols, frequencies ev matrix N L i k = 0) := by
  refine ⟨?_, ?_, ?_⟩
  · intro a ha hax
    unfold frequencies
    rw [freqCounts_eq_count ev matrix N L i _ hiL]
    congr 2
    refine List.countP_congr (fun s hs => ?_)
    have hsN : s < N := List.mem_range.mp hs
    simp only [decide_eq_true_eq]
    constructor
    · rintro ⟨hnex, hk⟩
      have hmem : (matrix s i).toUpper ∈ ev.alphabet := hvalid s hsN i hiL hnex
      exact ((List.indexOf_inj ha hmem).mp hk).symm
    · intro heq
      refine ⟨?_, ?_⟩
      · rw [heq]; exact hax
      · rw [heq]
  · intro hN hnex
    unfold frequencies
    rw [← Finset.sum_div]
    have hkey : ∑ k ∈ Finset.range ev.num_symbols, freqCounts ev matrix N L i k
        = (N : ℚ) := by
      have hrw : ∀ k, freqCounts ev matrix N L i k =
          ∑ s ∈ Finset.range N,
            (if decide (freqHits ev matrix s i k) then (1 : ℚ) else 0) := by
        intro k
        rw [freqCounts_eq_count ev matrix N L i k hiL, countP_cast_eq_sum]
      rw [Finset.sum_congr rfl (fun k _ => hrw k), Finset.sum_comm]
      have hrow : ∀ s ∈ Finset.range N,
          ∑ k ∈ Finset.range ev.num_symbols,
            (if decide (freqHits ev matrix s i k) then (1 : ℚ) else 0) = 1 := by
        intro s hs
        have hsN : s < N := Finset.mem_range.mp hs
        have hnexs := hnex s hsN
        have hmem : (matrix s i).toUpper ∈ ev.alphabet := hvalid s hsN i hiL hnexs
        have hlt : ev.alphabet_map (matrix s i).toUpper < ev.num_symbols :=
          List.indexOf_lt_length.mpr hmem
        have hpt : ∀ k, (if decide (freqHits ev matrix s i k) then (1 : ℚ) else 0) =
            if k = ev.alphabet_map (matrix s i).toUpper then (1 : ℚ) else 0 := by
          intro k
          by_cases hk : k = ev.alphabet_map (matrix s i).toUpper
          · simp [freqHits, hk, hnexs]
          · simp [freqHits, hk]
        rw [Finset.sum_congr rfl (fun k _ => hpt k), Finset.sum_ite_eq',
          if_pos (Finset.mem_range.mpr hlt)]
      rw [Finset.sum_congr rfl hrow]
      simp
    rw [hkey, div_self (Nat.cast_ne_zero.mpr (Nat.pos_iff_ne_zero.mp hN))]
  · intro hex
    refine Finset.sum_eq_zero (fun k _ => ?_)
    unfold frequencies
    rw [freqCounts_eq_count ev matrix N L i k hiL]
    have hzero : (List.range N).countP
        (fun s => decide (freqHits ev matrix s i k)) = 0 := by
      rw [List.countP_eq_zero]
      intro s hs
      simp only [decide_eq_true_eq]
      intro hhits
      exact hhits.1 (hex s (List.mem_range.mp hs))
    rw [hzero]
    simp

theorem C4_witness :
    ((∀ s < 2, ∀ i < 1, (matrixW s i).toUpper ∉ excluded_symbols →
        (matrixW s i).toUpper ∈ evW.alphabet) ∧ (0 : ℕ) < 1 ∧
      'C' ∈ evW.alphabet ∧ 'C' ∉ excluded_symbols) ∧
    frequencies evW matrixW 2 1 0 (evW.alphabet_map 'C') =
      ((List.range 2).countP (fun s => decide ((matrixW s 0).toUpper = 'C')) : ℚ) / 2 :=
  ⟨⟨by decide, by decide, by decide, by decide⟩,
   (C4_frequencies_counts evW matrixW 2 1 (by decide) 0 (by decide)).1 'C'
     (by decide) (by decide)⟩

theorem hasDerivAt_log_post (n : ℕ) (fi : Fin n → ℝ) (lambda_h N : ℝ)
    (x : Fin n → ℝ) (b : Fin n) :
    HasDerivAt (fun t => log_post n fi lambda_h N (Function.update x b t))
      (gradient n fi lambda_h N x b) (x b) := by
  have hsum : ∀ (F : Fin n → ℝ → ℝ) (t : ℝ),
      ∑ a, F a (Function.update x b t a) =
        F b t + ∑ a ∈ Finset.univ.erase b, F a (x a) := by
    intro F t
    rw [← Finset.add_sum_erase Finset.univ
      (fun a => F a (Function.update x b t a)) (Finset.mem_univ b)]
    rw [Function.update_same]
    congr 1
    refine Finset.sum_congr rfl (fun a ha => ?_)
    rw [Function.update_noteq (Finset.ne_of_mem_erase ha)]
  have hfun : (fun t => log_post n fi lambda_h N (Function.update x b t)) =
      fun t => N * (Real.log (Real.exp t + ∑ a ∈ Finset.univ.erase b, Real.exp (x a))
          - (fi b * t + ∑ a ∈ Finset.univ.erase b, fi a * x a))
        + lambda_h * (t ^ 2 + ∑ a ∈ Finset.univ.erase b, x a ^ 2) := by
    funext t
    unfold log_post
    rw [hsum (fun a s => Real.exp s) t, hsum (fun a s => fi a * s) t,
      hsum (fun a s => s ^ 2) t]
  rw [hfun]
  have hC1pos : 0 < Real.exp (x b) + ∑ a ∈ Finset.univ.erase b, Real.exp (x a) := by
    have h1 : 0 ≤ ∑ a ∈ Finset.univ.erase b, Real.exp (x a) :=
      Finset.sum_nonneg (fun a _ => (Real.exp_pos _).le)
    linarith [Real.exp_pos (x b)]
  have h1 : HasDerivAt (fun t : ℝ => Real.exp t + ∑ a ∈ Finset.univ.erase b, Real.exp (x a))
      (Real.exp (x b)) (x b) :=
    (Real.hasDerivAt_exp (x b)).add_const _
  have h2 : HasDerivAt
      (fun t : ℝ => Real.log (Real.exp t + ∑ a ∈ Finset.univ.erase b, Real.exp (x a)))
      (Real.exp (x b) / (Real.exp (x b) + ∑ a ∈ Finset.univ.erase b, Real.exp (x a)))
      (x b) :=
    h1.log (ne_of_gt hC1pos)
  have h3 : HasDerivAt (fun t : ℝ => fi b * t + ∑ a ∈ Finset.univ.erase b, fi a * x a)
      (fi b) (x b) := by
    simpa using ((hasDerivAt_id (x b)).const_mul (fi b)).add_const
      (∑ a ∈ Finset.univ.erase b, fi a * x a)
  have h4 : HasDerivAt (fun t : ℝ => t ^ 2 + ∑ a ∈ Finset.univ.erase b, x a ^ 2)
      (2 * x b) (x b) := by
    simpa using (hasDerivAt_pow 2 (x b)).add_const
      (∑ a ∈ Finset.univ.erase b, x a ^ 2)
  have h5 := ((h2.sub h3).const_mul N).add (h4.const_mul lambda_h)
  convert h5 using 1
  unfold gradient
  have hZ : ∑ a, Real.exp (x a) =
      Real.exp (x b) + ∑ a ∈ Finset.univ.erase b, Real.exp (x a) := by
    rw [← Finset.add_sum_erase Finset.univ
      (fun a => Real.exp (x a)) (Finset.mem_univ b)]
  rw [hZ]
  ring

/-- Claim C6: the single-site fitter hands the optimizer, independently for
each position `i < L` and with the zero vector as starting point, the
objective `N * (log Σ exp(x_a) - Σ f_a x_a) + λ Σ x_a²` and a gradient
function; and that gradient function is the analytic gradient of the
objective, namely `N * (softmax(x) - f) + 2 λ x` coordinatewise. -/
theorem C6_fitter_objective_and_gradient (n : ℕ) :
    (∀ (fmin_bfgs : ((Fin n → ℝ) → ℝ) → ((Fin n → ℝ) → Fin n → ℝ) →
        (Fin n → ℝ) → Fin n → ℝ)
      (f_i : ℕ → Fin n → ℝ) (lambda_h N_eff : ℝ) (L i : ℕ),
      independent_model n fmin_bfgs f_i lambda_h N_eff L i =
        if i < L then
          fmin_bfgs (log_post n (f_i i) lambda_h N_eff)
            (fun x => gradient n (f_i i) lambda_h N_eff x) (fun _ => 0)
        else fun _ => 0)
    ∧ (∀ (fi : Fin n → ℝ) (lambda_h N : ℝ) (x : Fin n → ℝ) (b : Fin n),
        HasDerivAt (fun t => log_post n fi lambda_h N (Function.update x b t))
          (gradient n fi lambda_h N x b) (x b)) :=
  ⟨fun _ _ _ _ _ _ => rfl,
   fun fi lambda_h N x b => hasDerivAt_log_post n fi lambda_h N x b⟩

/-! ## Case-insensitivity of the frequency estimator -/
theorem toNat_ofNat_valid {n : ℕ} (h : n < 55296) :
    (Char.ofNat n).toNat = n := by
  unfold Char.ofNat
  rw [dif_pos (Or.inl h : Nat.isValidChar n)]
  rfl

theorem toUpper_toLower (c : Char) : c.toLower.toUpper = c.toUpper := by
  by_cases h : c.toNat ≥ 65 ∧ c.toNat ≤ 90
  · have hlow : c.toLower = Char.ofNat (c.toNat + 32) := by
      unfold Char.toLower
      exact if_pos h
    rw [hlow]
    have ht : (Char.ofNat (c.toNat + 32)).toNat = c.toNat + 32 :=
      toNat_ofNat_valid (by omega)
    unfold Char.toUpper
    rw [ht]
    rw [if_pos (⟨by omega, by omega⟩ : c.toNat + 32 ≥ 97 ∧ c.toNat + 32 ≤ 122)]
    rw [if_neg (by omega : ¬(c.toNat ≥ 97 ∧ c.toNat ≤ 122))]
    rw [(by omega : c.toNat + 32 - 32 = c.toNat), Char.ofNat_toNat]
  · have hlow : c.toLower = c := by
      unfold Char.toLower
      exact if_neg h
    rw [hlow]

theorem freqStep_congr (ev : EVcouplings) (m m' : ℕ → ℕ → Char) (s i : ℕ)
    (h : (m' s i).toUpper = (m s i).toUpper) :
    freqStep ev m' s i = freqStep ev m s i := by
  unfold freqStep
  rw [h]

theorem frequencies_toUpper_congr (ev : EVcouplings) (m m' : ℕ → ℕ → Char)
    (N L : ℕ) (h : ∀ s i, (m' s i).toUpper = (m s i).toUpper) :
    frequencies ev m' N L = frequencies ev m N L := by
  unfold frequencies freqCounts
  have hstep : (fun (fi : ℕ → ℕ → ℚ) s =>
        (List.range L).foldl (fun fi i => freqStep ev m' s i fi) fi)
      = fun fi s => (List.range L).foldl (fun fi i => freqStep ev m s i fi) fi := by
    funext fi s
    congr 1
    funext fi2 i
    rw [freqStep_congr ev m m' s i (h s i)]
  rw [hstep]

/-- Claim C10: frequency counting is case-insensitive — every residue is
uppercased before both the excluded-symbol test and the alphabet lookup, so
replacing any subset of residues of an alignment by their lowercase forms
leaves the frequency matrix unchanged. -/
theorem C10_frequencies_case_insensitive (ev : EVcouplings)
    (m m' : ℕ → ℕ → Char) (N L : ℕ)
    (h : ∀ s i, m' s i = m s i ∨ m' s i = (m s i).toLower) :
    frequencies ev m' N L = frequencies ev m N L := by
  apply frequencies_toUpper_congr
  intro s i
  rcases h s i with he | he
  · rw [he]
  · rw [he, toUpper_toLower]

theorem C10_witness :
    (∀ s i, matrixW s i = matrixU s i ∨ matrixW s i = (matrixU s i).toLower) ∧
      frequencies evW matrixW 2 1 = frequencies evW matrixU 2 1 :=
  ⟨fun s i => by unfold matrixW matrixU; by_cases hs : s = 0 <;> simp [hs],
   C10_frequencies_case_insensitive evW matrixU matrixW 2 1
     (fun s i => by unfold matrixW matrixU; by_cases hs : s = 0 <;> simp [hs])⟩

end EVhumanization
